import Mathlib

/-!
Verification of `src/.project/internal/archive/update_imports.py`.

The script holds an ordered mapping `IMPORT_MAPPINGS` from regular
expressions to replacement strings.  Every pattern in the mapping has the
shape `from QPATHQ` where each `Q` is one character of the two-element
regex class quote/double-quote and `PATH` is a literal module path (the
regex escapes `.` and `/`, so the path part is literal).  Every
replacement has the shape `from 'RPATH'` with single quotes.
`update_file_imports` reads a file, applies `re.sub` for each mapping in
dict (insertion) order to the running content, and rewrites the file only
when the final content differs from the original.  `main` walks `src_new`
recursively over `*.ts` files, counting processed and updated files, and
aborts before touching any file when `src_new` does not exist.

The embedding models file content as `List Char`.  A rule is the pair of
its pattern path `PATH` and its replacement path `RPATH`; `matchAt`
implements matching of the pattern at the head of a string, and `subst`
implements `re.sub` for such a pattern: the leftmost match is replaced
and scanning resumes after the replaced text, exactly as Python's
non-overlapping left-to-right substitution does (two candidate matches of
one such pattern can never overlap, since at a given start position the
text determines the quote characters uniquely).
-/

/-- Single-quote character, written via its code point so that the file
avoids quote character literals. -/
def sqc : Char := Char.ofNat 39

/-- Double-quote character. -/
def dqc : Char := Char.ofNat 34

/-- Test for the regex character class matching a single or double quote,
used on both sides of every pattern's module path. -/
def isQuoteChar (c : Char) : Bool := c = sqc || c = dqc

/-- Literal `from ` that opens every pattern and every replacement. -/
def fromTok : List Char := ['f', 'r', 'o', 'm', ' ']

/-- Strip `p` from the front of `s`, returning the remainder. -/
def stripPre : List Char → List Char → Option (List Char)
  | [], s => some s
  | _ :: _, [] => none
  | p :: ps, c :: cs => if p = c then stripPre ps cs else none

theorem stripPre_eq_some {p s r : List Char} :
    stripPre p s = some r ↔ s = p ++ r := by
  induction p generalizing s with
  | nil => simp [stripPre]
  | cons a ps ih =>
    cases s with
    | nil => simp [stripPre]
    | cons c cs =>
      by_cases h : a = c
      · subst h
        simp [stripPre, ih]
      · simp only [stripPre, if_neg h, List.cons_append]
        constructor
        · intro h2; cases h2
        · intro h2
          exact absurd (List.cons.inj h2).1.symm h

/-- Matching of the pattern `from QPATHQ` at the head of `s`: on success,
returns the text after the match. -/
def matchAt (path : List Char) (s : List Char) : Option (List Char) :=
  match stripPre fromTok s with
  | none => none
  | some t =>
    match t with
    | [] => none
    | q1 :: t2 =>
      if isQuoteChar q1 then
        match stripPre path t2 with
        | none => none
        | some t3 =>
          match t3 with
          | [] => none
          | q2 :: rest => if isQuoteChar q2 then some rest else none
      else none

theorem matchAt_eq_some {path s rest : List Char} :
    matchAt path s = some rest ↔
      ∃ q1 q2, isQuoteChar q1 = true ∧ isQuoteChar q2 = true ∧
        s = fromTok ++ q1 :: (path ++ q2 :: rest) := by
  constructor
  · intro h
    unfold matchAt at h
    split at h
    · cases h
    rename_i t h1
    split at h
    · cases h
    rename_i q1 t2
    split at h
    case isFalse => cases h
    case isTrue hq1 =>
      split at h
      · cases h
      rename_i t3 h2
      split at h
      · cases h
      rename_i q2 r2
      split at h
      case isFalse => cases h
      case isTrue hq2 =>
        cases h
        refine ⟨q1, q2, hq1, hq2, ?_⟩
        rw [stripPre_eq_some] at h1 h2
        rw [h1, h2]
  · rintro ⟨q1, q2, hq1, hq2, rfl⟩
    unfold matchAt
    rw [stripPre_eq_some.mpr
      (rfl : fromTok ++ q1 :: (path ++ q2 :: rest) =
        fromTok ++ (q1 :: (path ++ q2 :: rest)))]
    simp only [if_pos hq1]
    rw [stripPre_eq_some.mpr
      (rfl : path ++ q2 :: rest = path ++ (q2 :: rest))]
    simp only [if_pos hq2]

theorem matchAt_some_length {path s rest : List Char} :
    matchAt path s = some rest → rest.length < s.length := by
  intro h
  obtain ⟨q1, q2, _, _, rfl⟩ := matchAt_eq_some.mp h
  simp [fromTok]
  omega

/-- Python `re.sub` for one pattern `from QPATHQ` with a literal
replacement `rep`: replace every non-overlapping match, scanning left to
right, with scanning resuming after each replaced stretch. -/
def subst (path rep : List Char) : List Char → List Char
  | [] => []
  | c :: cs =>
    match h : matchAt path (c :: cs) with
    | some rest => rep ++ subst path rep rest
    | none => c :: subst path rep cs
termination_by s => s.length
decreasing_by
  · exact matchAt_some_length h
  · simp

theorem subst_nil {path rep : List Char} : subst path rep [] = [] := by
  rw [subst]

theorem subst_cons_match {path rep rest : List Char} {c : Char}
    {cs : List Char} (h : matchAt path (c :: cs) = some rest) :
    subst path rep (c :: cs) = rep ++ subst path rep rest := by
  rw [subst]
  split
  · rename_i rest2 h2
    rw [h] at h2
    cases h2
    rfl
  · rename_i h2
    rw [h] at h2
    cases h2

theorem subst_cons_nomatch {path rep : List Char} {c : Char}
    {cs : List Char} (h : matchAt path (c :: cs) = none) :
    subst path rep (c :: cs) = c :: subst path rep cs := by
  rw [subst]
  split
  · rename_i rest2 h2
    rw [h] at h2
    cases h2
  · rfl

/-- Replacement text `from 'RPATH'` built from a replacement path, the
shape of every value in `IMPORT_MAPPINGS`. -/
def mkRep (rpath : List Char) : List Char := fromTok ++ sqc :: (rpath ++ [sqc])

/-- No position of `s` starts a match of the pattern with path `path`. -/
def noMatch (path : List Char) : List Char → Bool
  | [] => true
  | c :: cs => (matchAt path (c :: cs)).isNone && noMatch path cs

/-- Every position of `s` that starts a match of the pattern with path
`path` starts with the single-quoted text `from 'path'`. -/
def allSingle (path : List Char) : List Char → Bool
  | [] => true
  | c :: cs =>
    ((matchAt path (c :: cs)).isNone ||
      (stripPre (mkRep path) (c :: cs)).isSome) && allSingle path cs

/-- Character that is neither a quote nor a space: all characters of the
module paths in `IMPORT_MAPPINGS` are of this kind. -/
def plainChar (c : Char) : Bool := !(c = sqc) && !(c = dqc) && !(c = ' ')

/-- All characters plain (no quotes, no spaces). -/
def noQS (l : List Char) : Bool := l.all plainChar

/-- No occurrence of the two-character run `fr`: holds of every module
path in `IMPORT_MAPPINGS` and rules out a match of `from ` starting at an
interior character of a path. -/
def noFR : List Char → Bool
  | [] => true
  | c :: cs =>
    (!(c = 'f') || (match cs with | d :: _ => !(d = 'r') | [] => true)) &&
      noFR cs

/-- Condition on a strict suffix of a match `from QpathQ`: its head is
never an `f` that is followed by an `r` or by nothing.  Such a suffix can
therefore never line up with the front of a replacement `from '...'`. -/
def okSuf : List Char → Bool
  | [] => true
  | c :: cs =>
    (!(c = 'f') || (match cs with | d :: _ => !(d = 'r') | [] => false)) &&
      okSuf cs

theorem quote_ne_from {q : Char} (hq : isQuoteChar q = true) :
    q ≠ 'f' ∧ q ≠ 'r' ∧ q ≠ 'o' ∧ q ≠ 'm' ∧ q ≠ ' ' := by
  simp only [isQuoteChar, Bool.or_eq_true, decide_eq_true_eq] at hq
  rcases hq with h | h <;> subst h <;> exact ⟨by decide, by decide, by decide,
    by decide, by decide⟩

theorem plainChar_not_quote {c : Char} (h : plainChar c = true) :
    isQuoteChar c = false := by
  simp only [plainChar, Bool.and_eq_true, Bool.not_eq_true', decide_eq_false_iff_not] at h
  simp only [isQuoteChar, Bool.or_eq_false_iff, decide_eq_false_iff_not]
  exact ⟨h.1.1, h.1.2⟩

theorem noQS_space {l : List Char} (h : noQS l = true) :
    ∀ c ∈ l, c ≠ ' ' := by
  intro c hc
  have := List.all_eq_true.mp h c hc
  simp only [plainChar, Bool.and_eq_true, Bool.not_eq_true', decide_eq_false_iff_not] at this
  exact this.2

theorem noQS_not_quote {l : List Char} (h : noQS l = true) :
    ∀ c ∈ l, isQuoteChar c = false := by
  intro c hc
  exact plainChar_not_quote (List.all_eq_true.mp h c hc)

theorem noMatch_cons {path : List Char} {c : Char} {cs : List Char} :
    noMatch path (c :: cs) = true ↔
      matchAt path (c :: cs) = none ∧ noMatch path cs = true := by
  simp [noMatch, Option.isNone_iff_eq_none]

theorem noMatch_append_right {path x y : List Char}
    (h : noMatch path (x ++ y) = true) : noMatch path y = true := by
  induction x with
  | nil => exact h
  | cons a x ih =>
    rw [List.cons_append] at h
    exact ih (noMatch_cons.mp h).2

theorem allSingle_cons {path : List Char} {c : Char} {cs : List Char} :
    allSingle path (c :: cs) = true ↔
      (matchAt path (c :: cs) = none ∨
        (stripPre (mkRep path) (c :: cs)).isSome = true) ∧
      allSingle path cs = true := by
  simp [allSingle, Option.isNone_iff_eq_none]

theorem allSingle_append_right {path x y : List Char}
    (h : allSingle path (x ++ y) = true) : allSingle path y = true := by
  induction x with
  | nil => exact h
  | cons a x ih =>
    rw [List.cons_append] at h
    exact ih (allSingle_cons.mp h).2

theorem matchAt_cons_ne_f {path : List Char} {c : Char} {s : List Char}
    (hc : c ≠ 'f') : matchAt path (c :: s) = none := by
  cases h : matchAt path (c :: s) with
  | none => rfl
  | some r =>
    exfalso
    obtain ⟨q1, q2, _, _, heq⟩ := matchAt_eq_some.mp h
    simp only [fromTok, List.cons_append, List.nil_append, List.cons.injEq] at heq
    exact hc heq.1

theorem matchAt_seg_none {path u t : List Char} {q : Char}
    (hu : ∀ c ∈ u, c ≠ ' ') (hq : isQuoteChar q = true) :
    matchAt path (u ++ q :: t) = none := by
  cases h : matchAt path (u ++ q :: t) with
  | none => rfl
  | some r =>
    exfalso
    obtain ⟨q1, q2, _, _, heq⟩ := matchAt_eq_some.mp h
    obtain ⟨hf, hr, ho, hm, hs⟩ := quote_ne_from hq
    cases u with
    | nil =>
      simp only [fromTok, List.nil_append, List.cons_append, List.cons.injEq] at heq
      exact hf heq.1
    | cons a u1 =>
      cases u1 with
      | nil =>
        simp only [fromTok, List.cons_append, List.nil_append, List.cons.injEq] at heq
        exact hr heq.2.1
      | cons b u2 =>
        cases u2 with
        | nil =>
          simp only [fromTok, List.cons_append, List.nil_append, List.cons.injEq] at heq
          exact ho heq.2.2.1
        | cons c2 u3 =>
          cases u3 with
          | nil =>
            simp only [fromTok, List.cons_append, List.nil_append, List.cons.injEq] at heq
            exact hm heq.2.2.2.1
          | cons d u4 =>
            cases u4 with
            | nil =>
              simp only [fromTok, List.cons_append, List.nil_append,
                List.cons.injEq] at heq
              exact hs heq.2.2.2.2.1
            | cons e u5 =>
              simp only [fromTok, List.cons_append, List.nil_append,
                List.cons.injEq] at heq
              exact hu e (by simp) heq.2.2.2.2.1

theorem quoteSplit {a p t r : List Char} {qa qb : Char}
    (ha : noQS a = true) (hp : noQS p = true)
    (hqa : isQuoteChar qa = true) (hqb : isQuoteChar qb = true)
    (h : a ++ qa :: t = p ++ qb :: r) : a = p ∧ qa = qb ∧ t = r := by
  induction a generalizing p with
  | nil =>
    cases p with
    | nil =>
      simp only [List.nil_append, List.cons.injEq] at h
      exact ⟨rfl, h.1, h.2⟩
    | cons d ps =>
      exfalso
      simp only [List.nil_append, List.cons_append, List.cons.injEq] at h
      have hd : isQuoteChar d = false := noQS_not_quote hp d (by simp)
      rw [← h.1] at hd
      rw [hqa] at hd
      cases hd
  | cons c as ih =>
    cases p with
    | nil =>
      exfalso
      simp only [List.nil_append, List.cons_append, List.cons.injEq] at h
      have hc : isQuoteChar c = false := noQS_not_quote ha c (by simp)
      rw [h.1] at hc
      rw [hqb] at hc
      cases hc
    | cons d ps =>
      simp only [List.cons_append, List.cons.injEq] at h
      obtain ⟨rfl, h2⟩ := h
      have ha2 : noQS as = true := by
        simp only [noQS, List.all_cons, Bool.and_eq_true] at ha
        exact ha.2
      have hp2 : noQS ps = true := by
        simp only [noQS, List.all_cons, Bool.and_eq_true] at hp
        exact hp.2
      obtain ⟨he, hq, ht⟩ := ih ha2 hp2 h2
      exact ⟨by rw [he], hq, ht⟩

theorem mkRep_append {rpath t : List Char} :
    mkRep rpath ++ t = fromTok ++ sqc :: (rpath ++ sqc :: t) := by
  simp [mkRep]

theorem matchAt_mkRep_ne {path rpath t : List Char}
    (hne : path ≠ rpath) (hp : noQS path = true) (hrp : noQS rpath = true) :
    matchAt path (mkRep rpath ++ t) = none := by
  cases h : matchAt path (mkRep rpath ++ t) with
  | none => rfl
  | some r =>
    exfalso
    obtain ⟨q1, q2, hq1, hq2, heq⟩ := matchAt_eq_some.mp h
    rw [mkRep_append] at heq
    have h2 := List.append_cancel_left heq
    simp only [List.cons.injEq] at h2
    obtain ⟨hsq, h3⟩ := h2
    obtain ⟨he, _, _⟩ := quoteSplit hrp hp (by decide) hq2 h3
    exact hne he.symm

theorem noMatch_seg {path u t : List Char} {q : Char}
    (hu : ∀ c ∈ u, c ≠ ' ') (hq : isQuoteChar q = true)
    (ht : noMatch path t = true) : noMatch path (u ++ q :: t) = true := by
  induction u with
  | nil =>
    rw [List.nil_append]
    exact noMatch_cons.mpr
      ⟨matchAt_cons_ne_f (quote_ne_from hq).1, ht⟩
  | cons c u1 ih =>
    rw [List.cons_append]
    refine noMatch_cons.mpr ⟨?_, ?_⟩
    · rw [← List.cons_append]
      exact matchAt_seg_none hu hq
    · exact ih (fun d hd => hu d (by simp [hd]))

theorem allSingle_seg {path u t : List Char} {q : Char}
    (hu : ∀ c ∈ u, c ≠ ' ') (hq : isQuoteChar q = true)
    (ht : allSingle path t = true) :
    allSingle path (u ++ q :: t) = true := by
  induction u with
  | nil =>
    rw [List.nil_append]
    exact allSingle_cons.mpr
      ⟨Or.inl (matchAt_cons_ne_f (quote_ne_from hq).1), ht⟩
  | cons c u1 ih =>
    rw [List.cons_append]
    refine allSingle_cons.mpr ⟨?_, ?_⟩
    · rw [← List.cons_append]
      exact Or.inl (matchAt_seg_none hu hq)
    · exact ih (fun d hd => hu d (by simp [hd]))

theorem noMatch_mkRep_append {path rpath t : List Char}
    (hne : path ≠ rpath) (hp : noQS path = true) (hrp : noQS rpath = true)
    (ht : noMatch path t = true) :
    noMatch path (mkRep rpath ++ t) = true := by
  have e : mkRep rpath ++ t =
      'f' :: 'r' :: 'o' :: 'm' :: ' ' :: sqc :: (rpath ++ sqc :: t) := by
    simp [mkRep, fromTok]
  rw [e]
  refine noMatch_cons.mpr ⟨?_, ?_⟩
  · rw [← e]
    exact matchAt_mkRep_ne hne hp hrp
  refine noMatch_cons.mpr ⟨matchAt_cons_ne_f (by decide), ?_⟩
  refine noMatch_cons.mpr ⟨matchAt_cons_ne_f (by decide), ?_⟩
  refine noMatch_cons.mpr ⟨matchAt_cons_ne_f (by decide), ?_⟩
  refine noMatch_cons.mpr ⟨matchAt_cons_ne_f (by decide), ?_⟩
  refine noMatch_cons.mpr ⟨matchAt_cons_ne_f (by decide), ?_⟩
  exact noMatch_seg (noQS_space hrp) (by decide) ht

theorem allSingle_mkRep_append {path rpath t : List Char}
    (hp : noQS path = true) (hrp : noQS rpath = true)
    (ht : allSingle path t = true) :
    allSingle path (mkRep rpath ++ t) = true := by
  have e : mkRep rpath ++ t =
      'f' :: 'r' :: 'o' :: 'm' :: ' ' :: sqc :: (rpath ++ sqc :: t) := by
    simp [mkRep, fromTok]
  rw [e]
  refine allSingle_cons.mpr ⟨?_, ?_⟩
  · rw [← e]
    by_cases hpr : path = rpath
    · subst hpr
      refine Or.inr ?_
      have : stripPre (mkRep path) (mkRep path ++ t) = some t :=
        stripPre_eq_some.mpr rfl
      rw [this]
      rfl
    · exact Or.inl (matchAt_mkRep_ne hpr hp hrp)
  refine allSingle_cons.mpr ⟨Or.inl (matchAt_cons_ne_f (by decide)), ?_⟩
  refine allSingle_cons.mpr ⟨Or.inl (matchAt_cons_ne_f (by decide)), ?_⟩
  refine allSingle_cons.mpr ⟨Or.inl (matchAt_cons_ne_f (by decide)), ?_⟩
  refine allSingle_cons.mpr ⟨Or.inl (matchAt_cons_ne_f (by decide)), ?_⟩
  refine allSingle_cons.mpr ⟨Or.inl (matchAt_cons_ne_f (by decide)), ?_⟩
  exact allSingle_seg (noQS_space hrp) (by decide) ht

theorem okSuf_cons {c : Char} {cs : List Char} :
    okSuf (c :: cs) = true ↔
      ((c = 'f' → ∃ d ds, cs = d :: ds ∧ d ≠ 'r') ∧ okSuf cs = true) := by
  constructor
  · intro h
    simp only [okSuf, Bool.and_eq_true] at h
    refine ⟨?_, h.2⟩
    intro hc
    subst hc
    rcases h.1 with h1
    cases cs with
    | nil => simp at h1
    | cons d ds =>
      refine ⟨d, ds, rfl, ?_⟩
      simp only [Bool.or_eq_true, Bool.not_eq_true', decide_eq_false_iff_not] at h1
      rcases h1 with h1 | h1
      · simp at h1
      · exact h1
  · rintro ⟨h1, h2⟩
    simp only [okSuf, Bool.and_eq_true]
    refine ⟨?_, h2⟩
    by_cases hc : c = 'f'
    · obtain ⟨d, ds, rfl, hd⟩ := h1 hc
      simp [hd]
    · simp [hc]

theorem okSuf_append_quote {p : List Char} {q : Char}
    (hp : noQS p = true) (hfr : noFR p = true) (hq : isQuoteChar q = true) :
    okSuf (p ++ [q]) = true := by
  induction p with
  | nil =>
    refine okSuf_cons.mpr ⟨?_, rfl⟩
    intro hqf
    exact absurd hqf (quote_ne_from hq).1
  | cons c ps ih =>
    have hp2 : noQS ps = true := by
      simp only [noQS, List.all_cons, Bool.and_eq_true] at hp
      exact hp.2
    have hfr2 : noFR ps = true := by
      simp only [noFR, Bool.and_eq_true] at hfr
      exact hfr.2
    rw [List.cons_append]
    refine okSuf_cons.mpr ⟨?_, ih hp2 hfr2⟩
    intro hc
    cases ps with
    | nil =>
      exact ⟨q, [], rfl, (quote_ne_from hq).2.1⟩
    | cons d ds =>
      refine ⟨d, ds ++ [q], rfl, ?_⟩
      simp only [noFR, Bool.and_eq_true] at hfr
      rcases hfr.1 with h1
      subst hc
      simp only [Bool.or_eq_true, Bool.not_eq_true', decide_eq_false_iff_not] at h1
      rcases h1 with h1 | h1
      · simp at h1
      · exact h1

theorem okSuf_matchTail {path2 : List Char} {q1 q2 : Char}
    (hp : noQS path2 = true) (hfr : noFR path2 = true)
    (hq1 : isQuoteChar q1 = true) (hq2 : isQuoteChar q2 = true) :
    okSuf ('r' :: 'o' :: 'm' :: ' ' :: q1 :: (path2 ++ [q2])) = true := by
  refine okSuf_cons.mpr ⟨fun h => absurd h (by decide), ?_⟩
  refine okSuf_cons.mpr ⟨fun h => absurd h (by decide), ?_⟩
  refine okSuf_cons.mpr ⟨fun h => absurd h (by decide), ?_⟩
  refine okSuf_cons.mpr ⟨fun h => absurd h (by decide), ?_⟩
  refine okSuf_cons.mpr ⟨fun h => absurd h (quote_ne_from hq1).1,
    okSuf_append_quote hp hfr hq2⟩

theorem scan_transfer {path rpath : List Char} :
    ∀ n cs m2 r, List.length cs ≤ n → okSuf m2 = true →
      m2 ++ r = subst path (mkRep rpath) cs → ∃ r2, m2 ++ r2 = cs := by
  intro n
  induction n with
  | zero =>
    intro cs m2 r hn hok heq
    have hcs : cs = [] := List.length_eq_zero.mp (Nat.le_zero.mp hn)
    subst hcs
    rw [subst_nil] at heq
    have hm2 : m2 = [] := by
      cases m2 with
      | nil => rfl
      | cons d m3 => cases heq
    subst hm2
    exact ⟨[], rfl⟩
  | succ n ih =>
    intro cs m2 r hn hok heq
    cases m2 with
    | nil => exact ⟨cs, rfl⟩
    | cons d m3 =>
      cases cs with
      | nil =>
        rw [subst_nil] at heq
        cases heq
      | cons c cs2 =>
        cases hm : matchAt path (c :: cs2) with
        | some rest =>
          exfalso
          rw [subst_cons_match hm] at heq
          rw [mkRep_append] at heq
          simp only [fromTok, List.cons_append, List.nil_append,
            List.cons.injEq] at heq
          obtain ⟨hdf, heq2⟩ := heq
          obtain ⟨e, m4, he, her⟩ := (okSuf_cons.mp hok).1 hdf
          rw [he] at heq2
          simp only [List.cons_append, List.cons.injEq] at heq2
          exact her heq2.1
        | none =>
          rw [subst_cons_nomatch hm] at heq
          simp only [List.cons_append, List.cons.injEq] at heq
          obtain ⟨rfl, heq2⟩ := heq
          have hn2 : List.length cs2 ≤ n := by
            simp only [List.length_cons] at hn
            omega
          obtain ⟨r2, hr2⟩ := ih cs2 m3 r hn2 (okSuf_cons.mp hok).2 heq2
          exact ⟨r2, by rw [List.cons_append, hr2]⟩

theorem matchAt_subst_none {path2 path rpath : List Char} {c : Char}
    {cs : List Char} (hp2 : noQS path2 = true) (hfr2 : noFR path2 = true)
    (h : matchAt path2 (c :: cs) = none) :
    matchAt path2 (c :: subst path (mkRep rpath) cs) = none := by
  cases h2 : matchAt path2 (c :: subst path (mkRep rpath) cs) with
  | none => rfl
  | some r =>
    exfalso
    obtain ⟨q1, q2, hq1, hq2, heq⟩ := matchAt_eq_some.mp h2
    simp only [fromTok, List.cons_append, List.nil_append,
      List.cons.injEq] at heq
    obtain ⟨rfl, heq2⟩ := heq
    have heq3 : ('r' :: 'o' :: 'm' :: ' ' :: q1 :: (path2 ++ [q2])) ++ r =
        subst path (mkRep rpath) cs := by
      simp only [List.cons_append, List.append_assoc, List.cons_append,
        List.nil_append]
      exact heq2.symm
    obtain ⟨r2, hr2⟩ := scan_transfer (List.length cs) cs _ r (le_refl _)
      (okSuf_matchTail hp2 hfr2 hq1 hq2) heq3
    have hmm : matchAt path2 ('f' :: cs) = some r2 := by
      refine matchAt_eq_some.mpr ⟨q1, q2, hq1, hq2, ?_⟩
      rw [← hr2]
      simp [fromTok, List.append_assoc]
    rw [hmm] at h
    cases h

theorem matchAt_mkRep_eq {path t : List Char} :
    matchAt path (mkRep path ++ t) = some t := by
  refine matchAt_eq_some.mpr ⟨sqc, sqc, by decide, by decide, ?_⟩
  rw [mkRep_append]

theorem subst_of_noMatch {path rep : List Char} :
    ∀ s, noMatch path s = true → subst path rep s = s := by
  intro s
  induction s with
  | nil => intro _; exact subst_nil
  | cons c cs ih =>
    intro h
    obtain ⟨h1, h2⟩ := noMatch_cons.mp h
    rw [subst_cons_nomatch h1, ih h2]

theorem subst_seg {path rep u v : List Char} {q : Char}
    (hu : ∀ c ∈ u, c ≠ ' ') (hq : isQuoteChar q = true) :
    subst path rep (u ++ q :: v) = u ++ q :: subst path rep v := by
  induction u with
  | nil =>
    rw [List.nil_append, List.nil_append,
      subst_cons_nomatch (matchAt_cons_ne_f (quote_ne_from hq).1)]
  | cons c u1 ih =>
    rw [List.cons_append,
      subst_cons_nomatch (by
        rw [← List.cons_append]
        exact matchAt_seg_none hu hq),
      ih (fun d hd => hu d (by simp [hd])), List.cons_append]

theorem subst_mkRepTail {path rep path2 : List Char} {q1 q2 : Char}
    (hp2 : noQS path2 = true) (hq1 : isQuoteChar q1 = true)
    (hq2 : isQuoteChar q2 = true) (v : List Char) :
    subst path rep (('r' :: 'o' :: 'm' :: ' ' :: q1 :: (path2 ++ [q2])) ++ v) =
      ('r' :: 'o' :: 'm' :: ' ' :: q1 :: (path2 ++ [q2])) ++ subst path rep v := by
  simp only [List.cons_append]
  rw [subst_cons_nomatch (matchAt_cons_ne_f (by decide))]
  rw [subst_cons_nomatch (matchAt_cons_ne_f (by decide))]
  rw [subst_cons_nomatch (matchAt_cons_ne_f (by decide))]
  rw [subst_cons_nomatch (matchAt_cons_ne_f (by decide))]
  rw [subst_cons_nomatch (matchAt_cons_ne_f (quote_ne_from hq1).1)]
  have e : (path2 ++ [q2]) ++ v = path2 ++ q2 :: v := by simp
  rw [e, subst_seg (noQS_space hp2) hq2]
  simp

theorem subst_of_allSingle {path : List Char} :
    ∀ n s, List.length s ≤ n → allSingle path s = true →
      subst path (mkRep path) s = s := by
  intro n
  induction n with
  | zero =>
    intro s hn _
    have hs : s = [] := List.length_eq_zero.mp (Nat.le_zero.mp hn)
    subst hs
    exact subst_nil
  | succ n ih =>
    intro s hn h
    cases s with
    | nil => exact subst_nil
    | cons c cs =>
      obtain ⟨h1, h2⟩ := allSingle_cons.mp h
      rcases h1 with h1 | h1
      · rw [subst_cons_nomatch h1]
        rw [ih cs (by simp only [List.length_cons] at hn; omega) h2]
      · obtain ⟨y, hy⟩ := Option.isSome_iff_exists.mp h1
        have hey : c :: cs = mkRep path ++ y := stripPre_eq_some.mp hy
        have hm : matchAt path (c :: cs) = some y := by
          rw [hey]; exact matchAt_mkRep_eq
        rw [subst_cons_match hm]
        have hlen : List.length y ≤ n := by
          have := congrArg List.length hey
          simp only [List.length_cons, List.length_append, mkRep, fromTok] at this
          simp only [List.length_cons] at hn
          omega
        have hys : allSingle path y = true := by
          rw [hey] at h
          exact allSingle_append_right h
        rw [ih y hlen hys, ← hey]

theorem noMatch_subst {path2 path rpath : List Char}
    (hne : path2 ≠ rpath) (hp2 : noQS path2 = true) (hfr2 : noFR path2 = true)
    (hrp : noQS rpath = true) :
    ∀ n s, List.length s ≤ n → noMatch path2 s = true →
      noMatch path2 (subst path (mkRep rpath) s) = true := by
  intro n
  induction n with
  | zero =>
    intro s hn _
    have hs : s = [] := List.length_eq_zero.mp (Nat.le_zero.mp hn)
    subst hs
    rw [subst_nil]
    rfl
  | succ n ih =>
    intro s hn h
    cases s with
    | nil => rw [subst_nil]; rfl
    | cons c cs =>
      cases hm : matchAt path (c :: cs) with
      | some rest =>
        rw [subst_cons_match hm]
        have hrest : noMatch path2 rest = true := by
          obtain ⟨q1, q2, _, _, heq⟩ := matchAt_eq_some.mp hm
          have heq2 : c :: cs = (fromTok ++ q1 :: path ++ [q2]) ++ rest := by
            rw [heq]; simp
          rw [heq2] at h
          exact noMatch_append_right h
        have hlen : List.length rest ≤ n := by
          have := matchAt_some_length hm
          simp only [List.length_cons] at this hn
          omega
        exact noMatch_mkRep_append hne hp2 hrp (ih rest hlen hrest)
      | none =>
        rw [subst_cons_nomatch hm]
        obtain ⟨h1, h2⟩ := noMatch_cons.mp h
        refine noMatch_cons.mpr ⟨?_, ?_⟩
        · exact matchAt_subst_none hp2 hfr2 h1
        · exact ih cs (by simp only [List.length_cons] at hn; omega) h2

theorem noMatch_subst_self {path rpath : List Char}
    (hne : path ≠ rpath) (hp : noQS path = true) (hfr : noFR path = true)
    (hrp : noQS rpath = true) :
    ∀ n s, List.length s ≤ n →
      noMatch path (subst path (mkRep rpath) s) = true := by
  intro n
  induction n with
  | zero =>
    intro s hn
    have hs : s = [] := List.length_eq_zero.mp (Nat.le_zero.mp hn)
    subst hs
    rw [subst_nil]
    rfl
  | succ n ih =>
    intro s hn
    cases s with
    | nil => rw [subst_nil]; rfl
    | cons c cs =>
      cases hm : matchAt path (c :: cs) with
      | some rest =>
        rw [subst_cons_match hm]
        have hlen : List.length rest ≤ n := by
          have := matchAt_some_length hm
          simp only [List.length_cons] at this hn
          omega
        exact noMatch_mkRep_append hne hp hrp (ih rest hlen)
      | none =>
        rw [subst_cons_nomatch hm]
        refine noMatch_cons.mpr ⟨?_, ?_⟩
        · exact matchAt_subst_none hp hfr hm
        · exact ih cs (by simp only [List.length_cons] at hn; omega)

theorem allSingle_subst_self {path : List Char}
    (hp : noQS path = true) (hfr : noFR path = true) :
    ∀ n s, List.length s ≤ n →
      allSingle path (subst path (mkRep path) s) = true := by
  intro n
  induction n with
  | zero =>
    intro s hn
    have hs : s = [] := List.length_eq_zero.mp (Nat.le_zero.mp hn)
    subst hs
    rw [subst_nil]
    rfl
  | succ n ih =>
    intro s hn
    cases s with
    | nil => rw [subst_nil]; rfl
    | cons c cs =>
      cases hm : matchAt path (c :: cs) with
      | some rest =>
        rw [subst_cons_match hm]
        have hlen : List.length rest ≤ n := by
          have := matchAt_some_length hm
          simp only [List.length_cons] at this hn
          omega
        exact allSingle_mkRep_append hp hp (ih rest hlen)
      | none =>
        rw [subst_cons_nomatch hm]
        refine allSingle_cons.mpr ⟨?_, ?_⟩
        · exact Or.inl (matchAt_subst_none hp hfr hm)
        · exact ih cs (by simp only [List.length_cons] at hn; omega)

theorem allSingle_subst {path2 path rpath : List Char}
    (hp2 : noQS path2 = true) (hfr2 : noFR path2 = true)
    (hrp : noQS rpath = true) :
    ∀ n s, List.length s ≤ n → allSingle path2 s = true →
      allSingle path2 (subst path (mkRep rpath) s) = true := by
  intro n
  induction n with
  | zero =>
    intro s hn _
    have hs : s = [] := List.length_eq_zero.mp (Nat.le_zero.mp hn)
    subst hs
    rw [subst_nil]
    rfl
  | succ n ih =>
    intro s hn h
    cases s with
    | nil => rw [subst_nil]; rfl
    | cons c cs =>
      obtain ⟨h1, h2⟩ := allSingle_cons.mp h
      cases hm : matchAt path (c :: cs) with
      | some rest =>
        rw [subst_cons_match hm]
        have hrest : allSingle path2 rest = true := by
          obtain ⟨q1, q2, _, _, heq⟩ := matchAt_eq_some.mp hm
          have heq2 : c :: cs = (fromTok ++ q1 :: path ++ [q2]) ++ rest := by
            rw [heq]; simp
          rw [heq2] at h
          exact allSingle_append_right h
        have hlen : List.length rest ≤ n := by
          have := matchAt_some_length hm
          simp only [List.length_cons] at this hn
          omega
        exact allSingle_mkRep_append hp2 hrp (ih rest hlen hrest)
      | none =>
        rw [subst_cons_nomatch hm]
        refine allSingle_cons.mpr ⟨?_, ?_⟩
        · rcases h1 with h1 | h1
          · exact Or.inl (matchAt_subst_none hp2 hfr2 h1)
          · refine Or.inr ?_
            obtain ⟨y, hy⟩ := Option.isSome_iff_exists.mp h1
            have hey : c :: cs = mkRep path2 ++ y := stripPre_eq_some.mp hy
            have e : mkRep path2 =
                'f' :: 'r' :: 'o' :: 'm' :: ' ' :: sqc :: (path2 ++ [sqc]) := by
              simp [mkRep, fromTok]
            rw [e] at hey
            simp only [List.cons_append, List.cons.injEq] at hey
            obtain ⟨rfl, hcs⟩ := hey
            rw [hcs]
            have : subst path (mkRep rpath)
                (('r' :: 'o' :: 'm' :: ' ' :: sqc :: (path2 ++ [sqc])) ++ y) =
                ('r' :: 'o' :: 'm' :: ' ' :: sqc :: (path2 ++ [sqc])) ++
                  subst path (mkRep rpath) y :=
              subst_mkRepTail hp2 (by decide) (by decide) y
            simp only [List.cons_append] at this
            rw [this]
            refine Option.isSome_iff_exists.mpr
              ⟨subst path (mkRep rpath) y, ?_⟩
            refine stripPre_eq_some.mpr ?_
            rw [e]
            simp
        · exact ih cs (by simp only [List.length_cons] at hn; omega) h2

/-- Occurrence, anywhere in `s`, of a match of the pattern with path
`path` whose two quote characters are `q1` and `q2`. -/
def hasOccQ (path : List Char) (q1 q2 : Char) (s : List Char) : Prop :=
  ∃ x y, s = x ++ fromTok ++ q1 :: (path ++ q2 :: y)

/-- Occurrence of `lit` as a contiguous substring of `s`. -/
def containsL (lit s : List Char) : Prop := ∃ x y, s = x ++ lit ++ y

theorem containsL_mkRep_iff {rp s : List Char} :
    containsL (mkRep rp) s ↔ hasOccQ rp sqc sqc s := by
  constructor
  · rintro ⟨x, y, rfl⟩
    exact ⟨x, y, by simp [mkRep]⟩
  · rintro ⟨x, y, rfl⟩
    exact ⟨x, y, by simp [mkRep]⟩

theorem hasOccQ_nil {path : List Char} {q1 q2 : Char} :
    ¬ hasOccQ path q1 q2 [] := by
  rintro ⟨x, y, heq⟩
  cases x <;> simp at heq

theorem noMatch_no_occ {path s : List Char} {q1 q2 : Char}
    (hq1 : isQuoteChar q1 = true) (hq2 : isQuoteChar q2 = true)
    (h : noMatch path s = true) : ¬ hasOccQ path q1 q2 s := by
  induction s with
  | nil => exact hasOccQ_nil
  | cons c cs ih =>
    rintro ⟨x, y, heq⟩
    cases x with
    | nil =>
      simp only [List.nil_append] at heq
      have hm : matchAt path (c :: cs) = some y := by
        refine matchAt_eq_some.mpr ⟨q1, q2, hq1, hq2, ?_⟩
        rw [heq]
      rw [(noMatch_cons.mp h).1] at hm
      cases hm
    | cons a x2 =>
      simp only [List.cons_append, List.cons.injEq] at heq
      exact ih (noMatch_cons.mp h).2 ⟨x2, y, heq.2⟩

theorem hasOcc_cons_ne_f {path : List Char} {q1 q2 c : Char} {z : List Char}
    (hc : c ≠ 'f') (h : hasOccQ path q1 q2 (c :: z)) :
    hasOccQ path q1 q2 z := by
  obtain ⟨x, y, heq⟩ := h
  cases x with
  | nil =>
    exfalso
    simp only [List.nil_append, fromTok, List.cons_append, List.nil_append,
      List.cons.injEq] at heq
    exact hc heq.1
  | cons a x2 =>
    simp only [List.cons_append, List.cons.injEq] at heq
    exact ⟨x2, y, heq.2⟩

theorem noFR_cons {c : Char} {cs : List Char} :
    noFR (c :: cs) = true ↔
      ((c = 'f' → ∀ d ds, cs = d :: ds → d ≠ 'r') ∧ noFR cs = true) := by
  constructor
  · intro h
    simp only [noFR, Bool.and_eq_true] at h
    refine ⟨?_, h.2⟩
    intro hc d ds hcs
    subst hc
    subst hcs
    rcases h.1 with h1
    simp only [Bool.or_eq_true, Bool.not_eq_true', decide_eq_false_iff_not] at h1
    rcases h1 with h1 | h1
    · simp at h1
    · exact h1
  · rintro ⟨h1, h2⟩
    simp only [noFR, Bool.and_eq_true]
    refine ⟨?_, h2⟩
    by_cases hc : c = 'f'
    · cases cs with
      | nil => simp
      | cons d ds => simp [h1 hc d ds rfl]
    · simp [hc]

theorem occ_seg_extract {path2 w rest : List Char} {q1 q2 qb : Char}
    (hfr : noFR w = true) (hqb : isQuoteChar qb = true)
    (h : hasOccQ path2 q1 q2 (w ++ qb :: rest)) :
    hasOccQ path2 q1 q2 rest := by
  induction w with
  | nil =>
    rw [List.nil_append] at h
    exact hasOcc_cons_ne_f (quote_ne_from hqb).1 h
  | cons c w2 ih =>
    rw [List.cons_append] at h
    obtain ⟨x, y, heq⟩ := h
    cases x with
    | nil =>
      exfalso
      simp only [List.nil_append, fromTok, List.cons_append, List.nil_append,
        List.cons.injEq] at heq
      obtain ⟨hcf, heq2⟩ := heq
      cases w2 with
      | nil =>
        simp only [List.nil_append, List.cons.injEq] at heq2
        exact (quote_ne_from hqb).2.1 heq2.1
      | cons d w3 =>
        simp only [List.cons_append, List.cons.injEq] at heq2
        exact (noFR_cons.mp hfr).1 hcf d w3 rfl heq2.1
    | cons a x2 =>
      simp only [List.cons_append, List.cons.injEq] at heq
      exact ih (noFR_cons.mp hfr).2 ⟨x2, y, heq.2⟩

theorem occ_match_extract {path2 path rest : List Char} {q1 q2 qa qb : Char}
    (hne : path2 ≠ path) (hp2 : noQS path2 = true) (hp : noQS path = true)
    (hfrp : noFR path = true) (hq2 : isQuoteChar q2 = true)
    (hqa : isQuoteChar qa = true) (hqb : isQuoteChar qb = true)
    (h : hasOccQ path2 q1 q2 (fromTok ++ qa :: (path ++ qb :: rest))) :
    hasOccQ path2 q1 q2 rest := by
  obtain ⟨x, y, heq⟩ := h
  cases x with
  | nil =>
    exfalso
    rw [List.nil_append] at heq
    have h2 := List.append_cancel_left heq
    simp only [List.cons.injEq] at h2
    obtain ⟨he, hq, ht⟩ := quoteSplit hp hp2 hqb hq2 h2.2
    exact hne he.symm
  | cons a x2 =>
    have hocc : hasOccQ path2 q1 q2
        ('r' :: 'o' :: 'm' :: ' ' :: qa :: (path ++ qb :: rest)) := by
      simp only [fromTok, List.cons_append, List.nil_append,
        List.cons.injEq] at heq
      exact ⟨x2, y, heq.2⟩
    have h1 := hasOcc_cons_ne_f (by decide) hocc
    have h2 := hasOcc_cons_ne_f (by decide) h1
    have h3 := hasOcc_cons_ne_f (by decide) h2
    have h4 := hasOcc_cons_ne_f (by decide) h3
    have h5 := hasOcc_cons_ne_f (quote_ne_from hqa).1 h4
    exact occ_seg_extract hfrp hqb h5

theorem hasOcc_subst {path2 path rpath : List Char} {q1 q2 : Char}
    (hq1 : isQuoteChar q1 = true) (hq2 : isQuoteChar q2 = true)
    (hne : path2 ≠ path) (hp2 : noQS path2 = true)
    (hp : noQS path = true) (hfrp : noFR path = true) :
    ∀ n s, List.length s ≤ n → hasOccQ path2 q1 q2 s →
      hasOccQ path2 q1 q2 (subst path (mkRep rpath) s) := by
  intro n
  induction n with
  | zero =>
    intro s hn h
    have hs : s = [] := List.length_eq_zero.mp (Nat.le_zero.mp hn)
    subst hs
    exact absurd h hasOccQ_nil
  | succ n ih =>
    intro s hn h
    cases s with
    | nil => exact absurd h hasOccQ_nil
    | cons c cs =>
      cases hm : matchAt path (c :: cs) with
      | some rest =>
        rw [subst_cons_match hm]
        obtain ⟨qa, qb, hqa, hqb, heqm⟩ := matchAt_eq_some.mp hm
        rw [heqm] at h
        have hrest := occ_match_extract hne hp2 hp hfrp hq2 hqa hqb h
        have hlen : List.length rest ≤ n := by
          have := matchAt_some_length hm
          simp only [List.length_cons] at this hn
          omega
        obtain ⟨x2, y2, heq2⟩ := ih rest hlen hrest
        exact ⟨mkRep rpath ++ x2, y2, by rw [heq2]; simp⟩
      | none =>
        rw [subst_cons_nomatch hm]
        obtain ⟨x, y, heq⟩ := h
        cases x with
        | nil =>
          simp only [List.nil_append, fromTok, List.cons_append,
            List.nil_append, List.cons.injEq] at heq
          obtain ⟨rfl, hcs⟩ := heq
          have hcs2 : cs =
              ('r' :: 'o' :: 'm' :: ' ' :: q1 :: (path2 ++ [q2])) ++ y := by
            rw [hcs]; simp
          rw [hcs2, subst_mkRepTail hp2 hq1 hq2 y]
          refine ⟨[], subst path (mkRep rpath) y, ?_⟩
          simp [fromTok]
        | cons a x2 =>
          simp only [List.cons_append, List.cons.injEq] at heq
          obtain ⟨rfl, hcs⟩ := heq
          obtain ⟨x3, y3, heq3⟩ := ih cs
            (by simp only [List.length_cons] at hn; omega) ⟨x2, y, hcs⟩
          exact ⟨c :: x3, y3, by rw [heq3]; simp⟩

theorem occ_emit {path rpath : List Char} {q1 q2 : Char}
    (hq1 : isQuoteChar q1 = true) (hq2 : isQuoteChar q2 = true) :
    ∀ s, hasOccQ path q1 q2 s →
      containsL (mkRep rpath) (subst path (mkRep rpath) s) := by
  intro s
  induction s with
  | nil => intro h; exact absurd h hasOccQ_nil
  | cons c cs ih =>
    intro h
    cases hm : matchAt path (c :: cs) with
    | some rest =>
      rw [subst_cons_match hm]
      exact ⟨[], subst path (mkRep rpath) rest, by simp⟩
    | none =>
      rw [subst_cons_nomatch hm]
      obtain ⟨x, y, heq⟩ := h
      cases x with
      | nil =>
        exfalso
        rw [List.nil_append] at heq
        have : matchAt path (c :: cs) = some y :=
          matchAt_eq_some.mpr ⟨q1, q2, hq1, hq2, heq⟩
        rw [hm] at this
        cases this
      | cons a x2 =>
        simp only [List.cons_append, List.cons.injEq] at heq
        obtain ⟨rfl, hcs⟩ := heq
        obtain ⟨x3, y3, heq3⟩ := ih ⟨x2, y, hcs⟩
        exact ⟨c :: x3, y3, by rw [heq3]; simp⟩

theorem allSingle_occ {path s : List Char} {q1 q2 : Char}
    (hq1 : isQuoteChar q1 = true) (hq2 : isQuoteChar q2 = true)
    (hall : allSingle path s = true) (occ : hasOccQ path q1 q2 s) :
    q1 = sqc ∧ q2 = sqc := by
  induction s with
  | nil => exact absurd occ hasOccQ_nil
  | cons c cs ih =>
    obtain ⟨x, y, heq⟩ := occ
    cases x with
    | nil =>
      rw [List.nil_append] at heq
      obtain ⟨h1, _⟩ := allSingle_cons.mp hall
      rcases h1 with h1 | h1
      · exfalso
        have : matchAt path (c :: cs) = some y :=
          matchAt_eq_some.mpr ⟨q1, q2, hq1, hq2, heq⟩
        rw [h1] at this
        cases this
      · obtain ⟨y2, hy2⟩ := Option.isSome_iff_exists.mp h1
        have hey : c :: cs = mkRep path ++ y2 := stripPre_eq_some.mp hy2
        rw [heq, mkRep_append] at hey
        have h2 := List.append_cancel_left hey
        simp only [List.cons.injEq] at h2
        obtain ⟨hq1s, h3⟩ := h2
        have h4 := List.append_cancel_left h3
        simp only [List.cons.injEq] at h4
        exact ⟨hq1s, h4.1⟩
    | cons a x2 =>
      simp only [List.cons_append, List.cons.injEq] at heq
      exact ih (allSingle_cons.mp hall).2 ⟨x2, y, heq.2⟩

/-- One entry of `IMPORT_MAPPINGS`: the pattern is the regex
`from QpatQ` (written in the source with the escapes `\.` and `\/` and
the class for `Q`) and the replacement is the text `from 'RPATH'`,
that is, `mkRep rpath`. -/
structure Rule where
  pat : List Char
  rpath : List Char
deriving DecidableEq

/-- Build a rule from the pattern path and the replacement path. -/
def mkRule (p r : String) : Rule := ⟨p.toList, r.toList⟩

/-- The ordered rule set of the script, in dict insertion order, which
Python (3.7+) preserves during iteration.  Each entry carries the module
path of its regex and the module path of its replacement string. -/
def IMPORT_MAPPINGS : List Rule := [
  mkRule "../types" "../../shared/types",
  mkRule "../../types" "../../shared/types",
  mkRule "./types" "../shared/types",
  mkRule "../types/errors" "../../shared/errors",
  mkRule "../../types/errors" "../../shared/errors",
  mkRule "../types/options" "../../shared/types/options",
  mkRule "../../types/options" "../../shared/types/options",
  mkRule "../utils/helpers" "../../shared/utils/helpers",
  mkRule "../../utils/helpers" "../../shared/utils/helpers",
  mkRule "../utils/validators" "../../shared/utils/validators",
  mkRule "../../utils/validators" "../../shared/utils/validators",
  mkRule "../cache/CacheManager" "../../infrastructure/cache",
  mkRule "../cache/InMemoryCache" "../../infrastructure/cache",
  mkRule "./CacheManager" "./CacheManager",
  mkRule "../fetcher/Fetcher" "../../infrastructure/http",
  mkRule "../fetcher/BootstrapDiscovery" "../../infrastructure/http",
  mkRule "../fetcher/SSRFProtection" "../../infrastructure/security",
  mkRule "./Fetcher" "./Fetcher",
  mkRule "../normalizer/Normalizer" "../../infrastructure/http",
  mkRule "../normalizer/PIIRedactor" "../../infrastructure/security",
  mkRule "./QueryOrchestrator" "../services"]

/-- One iteration of the loop `content = re.sub(old_pattern, new_import,
content)`. -/
def applyRule (s : List Char) (r : Rule) : List Char :=
  subst r.pat (mkRep r.rpath) s

/-- The whole loop over `IMPORT_MAPPINGS.items()`: every rule applied in
order, each seeing the output of the previous ones. -/
def applyMappings (s : List Char) : List Char :=
  IMPORT_MAPPINGS.foldl applyRule s

/-- Well-formedness of one rule, checked over the concrete rule set: the
pattern path has no quotes and no spaces and never an `f` followed by an
`r`; the replacement path has no quotes and no spaces. -/
def ruleWF (r : Rule) : Bool := noQS r.pat && noFR r.pat && noQS r.rpath

/-- Interaction condition of rule `r` with a rule `r2` applied later: an
identity rule is compatible with everything, and otherwise the pattern of
`r` must differ from the replacement path of `r2`, so that text written
by `r2` never matches `r` again. -/
def pairOk (r r2 : Rule) : Bool :=
  decide (r.pat = r.rpath) || decide (r.pat ≠ r2.rpath)

/-- After a rule has run, the text satisfies this invariant and every
later rule maintains it: an identity rule leaves only single-quoted
matches of itself, any other rule leaves no match of itself at all. -/
def ruleInv (r : Rule) (s : List Char) : Prop :=
  if r.pat = r.rpath then allSingle r.pat s = true else noMatch r.pat s = true

theorem ruleWF_unpack {r : Rule} (h : ruleWF r = true) :
    noQS r.pat = true ∧ noFR r.pat = true ∧ noQS r.rpath = true := by
  simp only [ruleWF, Bool.and_eq_true] at h
  exact ⟨h.1.1, h.1.2, h.2⟩

theorem applyRule_fix {r : Rule} {s : List Char} (h : ruleInv r s) :
    applyRule s r = s := by
  unfold ruleInv at h
  by_cases hid : r.pat = r.rpath
  · rw [if_pos hid] at h
    unfold applyRule
    rw [← hid]
    exact subst_of_allSingle (List.length s) s (le_refl _) h
  · rw [if_neg hid] at h
    exact subst_of_noMatch s h

theorem applyRule_establish {r : Rule} (hwf : ruleWF r = true)
    (s : List Char) : ruleInv r (applyRule s r) := by
  obtain ⟨h1, h2, h3⟩ := ruleWF_unpack hwf
  unfold ruleInv applyRule
  by_cases hid : r.pat = r.rpath
  · rw [if_pos hid, ← hid]
    exact allSingle_subst_self h1 h2 (List.length s) s (le_refl _)
  · rw [if_neg hid]
    exact noMatch_subst_self hid h1 h2 h3 (List.length s) s (le_refl _)

theorem applyRule_preserve {r r2 : Rule} {s : List Char}
    (hwf : ruleWF r = true) (hwf2 : ruleWF r2 = true)
    (hpk : pairOk r r2 = true) (h : ruleInv r s) :
    ruleInv r (applyRule s r2) := by
  obtain ⟨h1, h2, _⟩ := ruleWF_unpack hwf
  obtain ⟨_, _, h6⟩ := ruleWF_unpack hwf2
  unfold ruleInv at h ⊢
  unfold applyRule
  by_cases hid : r.pat = r.rpath
  · rw [if_pos hid] at h ⊢
    exact allSingle_subst h1 h2 h6 (List.length s) s (le_refl _) h
  · rw [if_neg hid] at h ⊢
    have hne : r.pat ≠ r2.rpath := by
      simp only [pairOk, Bool.or_eq_true, decide_eq_true_eq] at hpk
      rcases hpk with hpk | hpk
      · exact absurd hpk hid
      · exact hpk
    exact noMatch_subst hne h1 h2 h6 (List.length s) s (le_refl _) h

theorem ruleInv_foldl {r : Rule} {L : List Rule} (hwf : ruleWF r = true)
    (hL : ∀ r2 ∈ L, ruleWF r2 = true ∧ pairOk r r2 = true) :
    ∀ s, ruleInv r s → ruleInv r (L.foldl applyRule s) := by
  induction L with
  | nil => intro s h; exact h
  | cons a L ih =>
    intro s h
    rw [List.foldl_cons]
    refine ih (fun r2 h2 => hL r2 (by simp [h2])) _ ?_
    exact applyRule_preserve hwf (hL a (by simp)).1 (hL a (by simp)).2 h

theorem ruleInv_foldl_mem {L : List Rule}
    (hwf : ∀ r ∈ L, ruleWF r = true)
    (hpk : ∀ r ∈ L, ∀ r2 ∈ L, pairOk r r2 = true) :
    ∀ s r, r ∈ L → ruleInv r (L.foldl applyRule s) := by
  induction L with
  | nil =>
    intro s r h
    cases h
  | cons a L ih =>
    intro s r hr
    rw [List.foldl_cons]
    rcases List.mem_cons.mp hr with rfl | hr2
    · refine ruleInv_foldl (hwf r (by simp))
        (fun r2 h2 => ⟨hwf r2 (by simp [h2]), hpk r (by simp) r2 (by simp [h2])⟩)
        _ ?_
      exact applyRule_establish (hwf r (by simp)) s
    · exact ih (fun r3 h3 => hwf r3 (by simp [h3]))
        (fun r3 h3 r2 h2 => hpk r3 (by simp [h3]) r2 (by simp [h2]))
        (applyRule s a) r hr2

theorem foldl_fix {L : List Rule} {s : List Char}
    (h : ∀ r ∈ L, ruleInv r s) : L.foldl applyRule s = s := by
  induction L with
  | nil => rfl
  | cons a L ih =>
    rw [List.foldl_cons, applyRule_fix (h a (by simp))]
    exact ih (fun r hr => h r (by simp [hr]))

theorem mappings_wf : ∀ r ∈ IMPORT_MAPPINGS, ruleWF r = true := by decide

theorem mappings_pairs :
    ∀ r ∈ IMPORT_MAPPINGS, ∀ r2 ∈ IMPORT_MAPPINGS, pairOk r r2 = true := by
  decide

theorem ruleInv_applyMappings {s : List Char} :
    ∀ r ∈ IMPORT_MAPPINGS, ruleInv r (applyMappings s) := by
  intro r hr
  exact ruleInv_foldl_mem mappings_wf mappings_pairs s r hr

theorem foldl_noMatchAll {L : List Rule} {s : List Char}
    (h : ∀ r ∈ L, noMatch r.pat s = true) : L.foldl applyRule s = s := by
  induction L with
  | nil => rfl
  | cons a L ih =>
    rw [List.foldl_cons]
    have e : applyRule s a = s := subst_of_noMatch s (h a (by simp))
    rw [e]
    exact ih (fun r hr => h r (by simp [hr]))

theorem hasOcc_foldl (p2 : List Char) (q1 q2 : Char) (L : List Rule)
    (hq1 : isQuoteChar q1 = true) (hq2 : isQuoteChar q2 = true)
    (hp2 : noQS p2 = true)
    (hL : ∀ r ∈ L, ruleWF r = true ∧ p2 ≠ r.pat) :
    ∀ s, hasOccQ p2 q1 q2 s → hasOccQ p2 q1 q2 (L.foldl applyRule s) := by
  induction L with
  | nil => intro s h; exact h
  | cons a L ih =>
    intro s h
    rw [List.foldl_cons]
    obtain ⟨hwa, hna⟩ := hL a (by simp)
    obtain ⟨ha1, ha2, _⟩ := ruleWF_unpack hwa
    refine ih (fun r hr => hL r (by simp [hr])) _ ?_
    exact hasOcc_subst hq1 hq2 hna hp2 ha1 ha2 (List.length s) s (le_refl _) h

theorem applyMappings_changes {s : List Char} (r : Rule) (q1 q2 : Char)
    (hr : r ∈ IMPORT_MAPPINGS) (hq1 : isQuoteChar q1 = true)
    (hq2 : isQuoteChar q2 = true) (hocc : hasOccQ r.pat q1 q2 s)
    (hdq : ¬(q1 = sqc ∧ q2 = sqc) ∨ r.pat ≠ r.rpath) :
    applyMappings s ≠ s := by
  intro heq
  have hinv := ruleInv_applyMappings (s := s) r hr
  rw [heq] at hinv
  unfold ruleInv at hinv
  by_cases hid : r.pat = r.rpath
  · rw [if_pos hid] at hinv
    have := allSingle_occ hq1 hq2 hinv hocc
    rcases hdq with hdq | hdq
    · exact hdq this
    · exact hdq hid
  · rw [if_neg hid] at hinv
    exact noMatch_no_occ hq1 hq2 hinv hocc

/-- Failure a single file's processing can hit, caught by the per-file
`try/except`.  `writeErr written` models an exception raised during
`f.write(content)` after `open(file_path, 'w')` already truncated the
file and `written` characters of the new content reached the disk. -/
inductive PerFileErr
  | readErr
  | decodeErr
  | writeErr (written : Nat)
deriving DecidableEq

/-- Observable outcome of `update_file_imports` on one file: the on-disk
content afterwards, the returned boolean, the error line printed (if
any), and how many times the file was opened for writing. -/
structure FileOutcome where
  disk : List Char
  ret : Bool
  log : Option (List Char)
  writes : Nat
deriving DecidableEq

/-- Text of `f"Error processing {file_path}: {e}"` up to the exception
text, which the model does not represent. -/
def errMsg (path : List Char) : List Char :=
  "Error processing ".toList ++ path

/-- Model of `update_file_imports(file_path)`: read the file (which can
raise), apply all mappings, and write back only if the content changed
(the write can raise after the truncation implied by mode `'w'`).  Any
exception is printed together with the path and turns into `False`. -/
def update_file_imports (path : List Char) (err : Option PerFileErr)
    (disk : List Char) : FileOutcome :=
  match err with
  | some PerFileErr.readErr => ⟨disk, false, some (errMsg path), 0⟩
  | some PerFileErr.decodeErr => ⟨disk, false, some (errMsg path), 0⟩
  | some (PerFileErr.writeErr k) =>
    if applyMappings disk = disk then ⟨disk, false, none, 0⟩
    else ⟨List.take k (applyMappings disk), false, some (errMsg path), 1⟩
  | none =>
    if applyMappings disk = disk then ⟨disk, false, none, 0⟩
    else ⟨applyMappings disk, true, none, 1⟩

/-- One file as the walk sees it: its path, the failure its processing
will hit (if any), and its current content. -/
structure FileSpec where
  path : List Char
  err : Option PerFileErr
  content : List Char

/-- Observable outcome of a whole run: whether the fatal missing-root
report was printed, the two counters, the number of files opened for
reading and for writing, and the resulting on-disk contents. -/
structure RunResult where
  fatal : Bool
  total_count : Nat
  updated_count : Nat
  reads : Nat
  writes : Nat
  disks : List (List Char)
deriving DecidableEq

/-- The loop `for ts_file in src_new.rglob('*.ts')`: every file in the
list is processed in order; `total_count` always advances and
`updated_count` advances when `update_file_imports` returned `True`. -/
def runFiles : List FileSpec → RunResult
  | [] => ⟨false, 0, 0, 0, 0, []⟩
  | f :: fs =>
    let o := update_file_imports f.path f.err f.content
    let r := runFiles fs
    ⟨false, r.total_count + 1, r.updated_count + (if o.ret then 1 else 0),
      r.reads + 1, r.writes + o.writes, o.disk :: r.disks⟩

/-- Model of the script's `main()` (the name `main` itself is reserved in
Lean): the file list stands for the files matched by the recursive `*.ts`
glob under `src_new`.  When the root does not exist the fatal report is
printed and nothing else happens: no file is opened for reading or
writing and every file keeps its content. -/
def mainRun (root_exists : Bool) (files : List FileSpec) : RunResult :=
  if root_exists then runFiles files
  else ⟨true, 0, 0, 0, 0, files.map FileSpec.content⟩

theorem runFiles_total (files : List FileSpec) :
    (runFiles files).total_count = files.length := by
  induction files with
  | nil => rfl
  | cons f fs ih => simp [runFiles, ih]

theorem runFiles_updated_le (files : List FileSpec) :
    (runFiles files).updated_count ≤ (runFiles files).total_count := by
  induction files with
  | nil => exact le_refl _
  | cons f fs ih =>
    simp only [runFiles]
    cases (update_file_imports f.path f.err f.content).ret <;> simp <;> omega

theorem runFiles_updated_eq (files : List FileSpec)
    (h : ∀ f ∈ files, f.err = none) :
    (runFiles files).updated_count =
      (files.filter
        (fun f => decide (applyMappings f.content ≠ f.content))).length := by
  induction files with
  | nil => rfl
  | cons f fs ih =>
    have hf : f.err = none := h f (by simp)
    have ihs := ih (fun g hg => h g (by simp [hg]))
    simp only [runFiles, hf, update_file_imports]
    by_cases hc : applyMappings f.content = f.content
    · simp [List.filter, hc, ihs]
    · simp [List.filter, hc, ihs]

theorem nodup_split_not_mem {x y : List (List Char)} {a : List Char}
    (h : (x ++ a :: y).Nodup) : a ∉ x ∧ a ∉ y := by
  simp only [List.nodup_append, List.nodup_cons] at h
  exact ⟨fun hx => h.2.2 hx (by simp), h.2.1.1⟩

theorem mappings_pat_nodup : (IMPORT_MAPPINGS.map Rule.pat).Nodup := by
  decide

theorem mappings_rpath_pat :
    ∀ i ∈ IMPORT_MAPPINGS, ∀ j ∈ IMPORT_MAPPINGS,
      i.rpath = j.pat → i = j := by
  decide

/-- C1, counterexample: the claim that the two-level-up pattern comes
before its one-level-up equivalent fails for `../types`: in the rule
list, the pattern for `../types` has index 0 and the pattern for
`../../types` has index 1, so the two-level-up pattern does NOT occur
earlier. -/
theorem C1_counterexample :
    "../types".toList ∈ IMPORT_MAPPINGS.map Rule.pat ∧
    "../../types".toList ∈ IMPORT_MAPPINGS.map Rule.pat ∧
    ¬ (List.indexOf "../../types".toList (IMPORT_MAPPINGS.map Rule.pat) <
        List.indexOf "../types".toList (IMPORT_MAPPINGS.map Rule.pat)) := by
  decide

/-- C1 (amended): for every module path that has both a one-level-up and
a two-level-up pattern in the rule set, the ONE-level-up pattern occurs
earlier in the ordered rule list than the two-level-up pattern (the
opposite of the claimed order). -/
theorem C1_ordering :
    ∀ q ∈ IMPORT_MAPPINGS.map Rule.pat,
      ("../".toList ++ q) ∈ IMPORT_MAPPINGS.map Rule.pat →
      List.indexOf q (IMPORT_MAPPINGS.map Rule.pat) <
        List.indexOf ("../".toList ++ q) (IMPORT_MAPPINGS.map Rule.pat) := by
  decide

theorem C1_witness :
    "../types".toList ∈ IMPORT_MAPPINGS.map Rule.pat ∧
    ("../".toList ++ "../types".toList) ∈ IMPORT_MAPPINGS.map Rule.pat ∧
    List.indexOf "../types".toList (IMPORT_MAPPINGS.map Rule.pat) <
      List.indexOf ("../".toList ++ "../types".toList)
        (IMPORT_MAPPINGS.map Rule.pat) :=
  ⟨by decide, by decide, C1_ordering "../types".toList (by decide) (by decide)⟩

/-- C2: applying the full ordered rule set twice to any text yields the
same result as applying it once — the transformation is idempotent. -/
theorem C2_transform_idempotent (s : List Char) :
    applyMappings (applyMappings s) = applyMappings s := by
  have h := foldl_fix (L := IMPORT_MAPPINGS) (s := applyMappings s)
    (fun r hr => ruleInv_applyMappings r hr)
  exact h

/-- C4: on content that matches no rule of the set, the transformation
is the identity, the function reports no change, and the file is neither
written nor logged about. -/
theorem C4_no_match_id (path content : List Char)
    (h : ∀ r ∈ IMPORT_MAPPINGS, noMatch r.pat content = true) :
    applyMappings content = content ∧
    update_file_imports path none content = ⟨content, false, none, 0⟩ := by
  have h1 : applyMappings content = content := foldl_noMatchAll h
  refine ⟨h1, ?_⟩
  simp [update_file_imports, h1]

theorem C4_witness :
    (∀ r ∈ IMPORT_MAPPINGS, noMatch r.pat "const x = 1;".toList = true) ∧
    (applyMappings "const x = 1;".toList = "const x = 1;".toList ∧
      update_file_imports "a.ts".toList none "const x = 1;".toList =
        ⟨"const x = 1;".toList, false, none, 0⟩) :=
  ⟨by decide, C4_no_match_id "a.ts".toList "const x = 1;".toList (by decide)⟩

/-- C5: after applying all rules in order, the function reports a change
exactly when the result differs from the original, the file ends up
holding the fully transformed content exactly when a change was
reported, and it is opened for writing exactly once when changed and
never otherwise. -/
theorem C5_write_iff_changed (path content : List Char) :
    ((update_file_imports path none content).ret = true ↔
      applyMappings content ≠ content) ∧
    (update_file_imports path none content).disk =
      (if applyMappings content = content then content
        else applyMappings content) ∧
    (update_file_imports path none content).writes =
      (if (update_file_imports path none content).ret = true then 1
        else 0) := by
  by_cases hc : applyMappings content = content <;>
    simp [update_file_imports, hc]

/-- C6: over an existing root, `updated_count` never exceeds
`total_count`; `total_count` equals the number of files matching the
`*.ts` filter (the model's file list holds exactly those files); and in
an error-free run `updated_count` counts exactly the files whose content
the transformation changes. -/
theorem C6_counters (files files2 : List FileSpec)
    (h : ∀ f ∈ files, f.err = none) :
    (mainRun true files2).updated_count ≤ (mainRun true files2).total_count ∧
    (mainRun true files).total_count = files.length ∧
    (mainRun true files).updated_count =
      (files.filter
        (fun f => decide (applyMappings f.content ≠ f.content))).length := by
  refine ⟨?_, ?_, ?_⟩
  · simpa [mainRun] using runFiles_updated_le files2
  · simpa [mainRun] using runFiles_total files
  · simpa [mainRun] using runFiles_updated_eq files h

/-- C7: when the root directory does not exist, the run reports the
fatal condition and stops: no file is opened for reading or writing,
both counters stay zero, and every file keeps its content. -/
theorem C7_missing_root (files : List FileSpec) :
    mainRun false files = ⟨true, 0, 0, 0, 0, files.map FileSpec.content⟩ := by
  simp [mainRun]

theorem C6_witness :
    (∀ f ∈ [FileSpec.mk "a.ts".toList none (mkRep "../types".toList),
        FileSpec.mk "b.ts".toList none "x".toList], f.err = none) ∧
    ((mainRun true ([] : List FileSpec)).updated_count ≤
        (mainRun true ([] : List FileSpec)).total_count ∧
      (mainRun true [FileSpec.mk "a.ts".toList none (mkRep "../types".toList),
          FileSpec.mk "b.ts".toList none "x".toList]).total_count =
        [FileSpec.mk "a.ts".toList none (mkRep "../types".toList),
          FileSpec.mk "b.ts".toList none "x".toList].length ∧
      (mainRun true [FileSpec.mk "a.ts".toList none (mkRep "../types".toList),
          FileSpec.mk "b.ts".toList none "x".toList]).updated_count =
        ([FileSpec.mk "a.ts".toList none (mkRep "../types".toList),
          FileSpec.mk "b.ts".toList none "x".toList].filter
          (fun f => decide (applyMappings f.content ≠ f.content))).length) :=
  ⟨by decide,
    C6_counters
      [FileSpec.mk "a.ts".toList none (mkRep "../types".toList),
        FileSpec.mk "b.ts".toList none "x".toList] [] (by decide)⟩

/-- C3, counterexample: a file whose write fails is NOT left unmodified.
With content `from '../types'` (which the rule set changes) and a write
failure after 0 characters were flushed, the on-disk content afterwards
is empty rather than the original text, because `open(path, 'w')`
truncates the file before `f.write` runs. -/
theorem C3_counterexample :
    (update_file_imports "a.ts".toList (some (PerFileErr.writeErr 0))
        (mkRep "../types".toList)).disk ≠ mkRep "../types".toList := by
  have hch : applyMappings (mkRep "../types".toList) ≠
      mkRep "../types".toList := by
    refine applyMappings_changes
      (mkRule "../types" "../../shared/types") sqc sqc
      (by decide) (by decide) (by decide) ⟨[], [], by decide⟩
      (Or.inr (by decide))
  simp only [update_file_imports, if_neg hch]
  simp [mkRep]

/-- C3 (amended): every per-file error is logged together with the
file's path, the returned flag is false, and the run continues with the
next file; a read or decode error leaves the file unmodified, while a
write error (raised only when a write was attempted, i.e. when the
content changed) leaves on disk the truncated prefix of the new content
flushed before the exception — not the original content. -/
theorem C3_per_file_errors (path disk : List Char) (e : PerFileErr)
    (fs : List FileSpec) :
    (update_file_imports path (some e) disk).ret = false ∧
    (update_file_imports path (some e) disk).log =
      (match e with
        | PerFileErr.writeErr _ =>
          if applyMappings disk = disk then none else some (errMsg path)
        | _ => some (errMsg path)) ∧
    (update_file_imports path (some e) disk).disk =
      (match e with
        | PerFileErr.writeErr k =>
          if applyMappings disk = disk then disk
          else List.take k (applyMappings disk)
        | _ => disk) ∧
    containsL path (errMsg path) ∧
    (runFiles (⟨path, some e, disk⟩ :: fs)).total_count = fs.length + 1 := by
  have hcont : containsL path (errMsg path) :=
    ⟨"Error processing ".toList, [], by simp [errMsg]⟩
  have htot : (runFiles (⟨path, some e, disk⟩ :: fs)).total_count =
      fs.length + 1 := by
    simp [runFiles, runFiles_total]
  cases e with
  | readErr => exact ⟨rfl, rfl, rfl, hcont, htot⟩
  | decodeErr => exact ⟨rfl, rfl, rfl, hcont, htot⟩
  | writeErr k =>
    by_cases hc : applyMappings disk = disk <;>
      simp [update_file_imports, hc, hcont, htot]

/-- C8: any content containing the literal `from '../types'` is
transformed into content that contains `from '../../shared/types'` and
no longer contains `from '../types'`. -/
theorem C8_types_rewrite (content : List Char)
    (h : containsL (mkRep "../types".toList) content) :
    containsL (mkRep "../../shared/types".toList) (applyMappings content) ∧
    ¬ containsL (mkRep "../types".toList) (applyMappings content) := by
  constructor
  · have hocc : hasOccQ "../types".toList sqc sqc content :=
      containsL_mkRep_iff.mp h
    have h1 : containsL (mkRep "../../shared/types".toList)
        (applyRule content (mkRule "../types" "../../shared/types")) :=
      occ_emit (by decide) (by decide) content hocc
    have h2 : hasOccQ "../../shared/types".toList sqc sqc
        (applyRule content (mkRule "../types" "../../shared/types")) :=
      containsL_mkRep_iff.mp h1
    have h3 := hasOcc_foldl "../../shared/types".toList sqc sqc
      (List.tail IMPORT_MAPPINGS) (by decide) (by decide)
      (by decide) (by decide)
      (applyRule content (mkRule "../types" "../../shared/types")) h2
    exact containsL_mkRep_iff.mpr h3
  · have hinv := ruleInv_applyMappings (s := content)
      (mkRule "../types" "../../shared/types") (by decide)
    unfold ruleInv at hinv
    rw [if_neg (by decide)] at hinv
    intro hcon
    exact noMatch_no_occ (by decide) (by decide) hinv
      (containsL_mkRep_iff.mp hcon)

theorem C8_witness :
    containsL (mkRep "../types".toList) (mkRep "../types".toList) ∧
    (containsL (mkRep "../../shared/types".toList)
        (applyMappings (mkRep "../types".toList)) ∧
      ¬ containsL (mkRep "../types".toList)
        (applyMappings (mkRep "../types".toList))) :=
  ⟨⟨[], [], by simp⟩,
    C8_types_rewrite (mkRep "../types".toList) ⟨[], [], by simp⟩⟩

/-- C9: any content containing the literal `from '../fetcher/Fetcher'`
is transformed into content containing `from '../../infrastructure/http'`. -/
theorem C9_fetcher_rewrite (content : List Char)
    (h : containsL (mkRep "../fetcher/Fetcher".toList) content) :
    containsL (mkRep "../../infrastructure/http".toList)
      (applyMappings content) := by
  have hocc : hasOccQ "../fetcher/Fetcher".toList sqc sqc content :=
    containsL_mkRep_iff.mp h
  have hpre := hasOcc_foldl "../fetcher/Fetcher".toList sqc sqc
    (List.take 14 IMPORT_MAPPINGS) (by decide) (by decide)
    (by decide) (by decide) content hocc
  have hemit : containsL (mkRep "../../infrastructure/http".toList)
      (applyRule ((List.take 14 IMPORT_MAPPINGS).foldl applyRule content)
        (mkRule "../fetcher/Fetcher" "../../infrastructure/http")) :=
    occ_emit (by decide) (by decide) _ hpre
  have hocc2 := containsL_mkRep_iff.mp hemit
  have hpost := hasOcc_foldl "../../infrastructure/http".toList sqc sqc
    (List.drop 15 IMPORT_MAPPINGS) (by decide)
    (by decide) (by decide) (by decide) _ hocc2
  refine containsL_mkRep_iff.mpr ?_
  have e : applyMappings content =
      (List.drop 15 IMPORT_MAPPINGS).foldl applyRule
        (applyRule ((List.take 14 IMPORT_MAPPINGS).foldl applyRule content)
          (mkRule "../fetcher/Fetcher" "../../infrastructure/http")) := rfl
  rw [e]
  exact hpost

theorem C9_witness :
    containsL (mkRep "../fetcher/Fetcher".toList)
      (mkRep "../fetcher/Fetcher".toList) ∧
    containsL (mkRep "../../infrastructure/http".toList)
      (applyMappings (mkRep "../fetcher/Fetcher".toList)) :=
  ⟨⟨[], [], by simp⟩,
    C9_fetcher_rewrite (mkRep "../fetcher/Fetcher".toList) ⟨[], [], by simp⟩⟩

/-- C10: a double-quoted recognized import (either quote written as a
double quote) always triggers a rewrite: the transformation changes the
content, the file is rewritten with the fully transformed content and
counted in `updated_count`, and the result contains the single-quoted
replacement of the matched rule — also for the rules whose source and
target module path are identical. -/
theorem C10_double_quote_rewrite (path content : List Char) (r : Rule)
    (q1 q2 : Char) (hr : r ∈ IMPORT_MAPPINGS) (hq1 : isQuoteChar q1 = true)
    (hq2 : isQuoteChar q2 = true) (hdq : q1 = dqc ∨ q2 = dqc)
    (hocc : hasOccQ r.pat q1 q2 content) :
    applyMappings content ≠ content ∧
    update_file_imports path none content =
      ⟨applyMappings content, true, none, 1⟩ ∧
    containsL (mkRep r.rpath) (applyMappings content) ∧
    (runFiles [⟨path, none, content⟩]).updated_count = 1 := by
  have hne : applyMappings content ≠ content := by
    refine applyMappings_changes r q1 q2 hr hq1 hq2 hocc (Or.inl ?_)
    rintro ⟨rfl, rfl⟩
    rcases hdq with hdq | hdq <;> exact absurd hdq (by decide)
  obtain ⟨hwr1, hwr2, hwr3⟩ := ruleWF_unpack (mappings_wf r hr)
  refine ⟨hne, ?_, ?_, ?_⟩
  · simp [update_file_imports, hne]
  · obtain ⟨L1, L2, hsplit⟩ := List.append_of_mem hr
    have hnd : (IMPORT_MAPPINGS.map Rule.pat).Nodup := mappings_pat_nodup
    rw [hsplit] at hnd
    simp only [List.map_append, List.map_cons] at hnd
    obtain ⟨hnm1, hnm2⟩ := nodup_split_not_mem hnd
    have hmem1 : ∀ r2 ∈ L1, r2 ∈ IMPORT_MAPPINGS := by
      intro r2 h2
      rw [hsplit]
      exact List.mem_append.mpr (Or.inl h2)
    have hmem2 : ∀ r2 ∈ L2, r2 ∈ IMPORT_MAPPINGS := by
      intro r2 h2
      rw [hsplit]
      exact List.mem_append.mpr (Or.inr (by simp [h2]))
    have hpre := hasOcc_foldl r.pat q1 q2 L1 hq1 hq2 hwr1
      (fun r2 h2 => ⟨mappings_wf r2 (hmem1 r2 h2), by
        intro he
        exact hnm1 (by rw [he]; exact List.mem_map_of_mem Rule.pat h2)⟩)
      content hocc
    have hemit : containsL (mkRep r.rpath)
        (applyRule (L1.foldl applyRule content) r) := by
      unfold applyRule
      exact occ_emit hq1 hq2 _ hpre
    have hocc2 := containsL_mkRep_iff.mp hemit
    have hpost := hasOcc_foldl r.rpath sqc sqc L2 (by decide) (by decide)
      hwr3
      (fun r2 h2 => ⟨mappings_wf r2 (hmem2 r2 h2), by
        intro he
        have := mappings_rpath_pat r hr r2 (hmem2 r2 h2) he
        rw [this] at hnm2
        exact hnm2 (List.mem_map_of_mem Rule.pat h2)⟩)
      _ hocc2
    refine containsL_mkRep_iff.mpr ?_
    have e : applyMappings content =
        L2.foldl applyRule (applyRule (L1.foldl applyRule content) r) := by
      unfold applyMappings
      rw [hsplit, List.foldl_append, List.foldl_cons]
    rw [e]
    exact hpost
  · simp [runFiles, update_file_imports, hne]

theorem C10_witness :
    ((mkRule "./CacheManager" "./CacheManager") ∈ IMPORT_MAPPINGS ∧
      hasOccQ (mkRule "./CacheManager" "./CacheManager").pat dqc dqc
        (fromTok ++ dqc :: ("./CacheManager".toList ++ [dqc]))) ∧
    (applyMappings (fromTok ++ dqc :: ("./CacheManager".toList ++ [dqc])) ≠
        fromTok ++ dqc :: ("./CacheManager".toList ++ [dqc]) ∧
      update_file_imports "a.ts".toList none
          (fromTok ++ dqc :: ("./CacheManager".toList ++ [dqc])) =
        ⟨applyMappings (fromTok ++ dqc :: ("./CacheManager".toList ++ [dqc])),
          true, none, 1⟩ ∧
      containsL (mkRep (mkRule "./CacheManager" "./CacheManager").rpath)
        (applyMappings (fromTok ++ dqc :: ("./CacheManager".toList ++ [dqc]))) ∧
      (runFiles [⟨"a.ts".toList, none,
          fromTok ++ dqc :: ("./CacheManager".toList ++ [dqc])⟩]).updated_count =
        1) :=
  ⟨⟨by decide, ⟨[], [], by decide⟩⟩,
    C10_double_quote_rewrite "a.ts".toList
      (fromTok ++ dqc :: ("./CacheManager".toList ++ [dqc]))
      (mkRule "./CacheManager" "./CacheManager") dqc dqc (by decide)
      (by decide) (by decide) (Or.inl rfl) ⟨[], [], by decide⟩⟩
